import Mathlib

/-!
Verification development for the index-fund replication calculator
(`src/main.py`).  The two core functions, `calculate_weights_with_cap`
and `calculate_shares`, are embedded over `ℚ`; Python `dict`s keyed by
ticker are embedded as insertion-ordered association lists where an
insertion with an existing key overwrites the value in place.
-/

set_option autoImplicit false

/-- An equity record: `ticker`, `market_cap` and `price` keys of the
input dictionaries in `main.py`. -/
structure Equity where
  ticker : String
  market_cap : ℚ
  price : ℚ
deriving DecidableEq, Repr

/-- Python dict assignment `d[k] = v`: overwrite the entry in place when
the key is present, otherwise append the new pair at the end. -/
def dictUpsert {α : Type} (k : String) (v : α) : List (String × α) → List (String × α)
  | [] => [(k, v)]
  | p :: ps => if p.1 = k then (k, v) :: ps else p :: dictUpsert k v ps

/-- Building a Python dict from a sequence of key-value pairs (a dict
comprehension): later pairs with the same key overwrite earlier ones. -/
def pyDict {α : Type} (l : List (String × α)) : List (String × α) :=
  l.foldl (fun d p => dictUpsert p.1 p.2 d) []

/-- Python dict lookup `d[k]`, `none` when the key is absent (KeyError). -/
def dictLookup {α : Type} (d : List (String × α)) (k : String) : Option α :=
  (d.find? (fun p => p.1 == k)).map Prod.snd

/-- `total_market_cap = sum(equity["market_cap"] for equity in equities)`
from `calculate_weights_with_cap` (main.py line 49). -/
def totalMarketCap (equities : List Equity) : ℚ :=
  (equities.map Equity.market_cap).sum

/-- The `initial_weights` dict comprehension of `calculate_weights_with_cap`
(main.py lines 55-58): ticker mapped to market cap over total market cap. -/
def initialWeights (equities : List Equity) : List (String × ℚ) :=
  pyDict (equities.map (fun e => (e.ticker, e.market_cap / totalMarketCap equities)))

/-- The `excess_weight` accumulated by the capping loop of
`calculate_weights_with_cap` (main.py lines 64-69): the sum over all
tickers of the part of the initial weight above the cap. -/
def excessWeight (cap : ℚ) (iw : List (String × ℚ)) : ℚ :=
  (iw.map (fun p => if cap < p.2 then p.2 - cap else 0)).sum

/-- The `non_capped_total` of `calculate_weights_with_cap` (main.py lines
74-83): the total initial weight of the tickers at or below the cap. -/
def nonCappedTotal (cap : ℚ) (iw : List (String × ℚ)) : ℚ :=
  ((iw.filter (fun p => p.2 ≤ cap)).map Prod.snd).sum

/-- The final weight of one ticker in `calculate_weights_with_cap`
(main.py lines 64-93).  A ticker above the cap is set to the cap; a
ticker at or below the cap receives its proportional share of the excess
and is clamped back to the cap, but only when the redistribution branch
runs, that is when the excess is positive and the non-capped group has
positive total initial weight (the guards at lines 72, 79 and 85; a
positive group total implies the group is non-empty). -/
def finalWeight (cap excess nct w : ℚ) : ℚ :=
  if cap < w then cap
  else if 0 < excess ∧ 0 < nct then min (w + excess * (w / nct)) cap
  else w

/-- `calculate_weights_with_cap(equities, cap_percentage)` (main.py lines
36-95).  Raises `ValueError("Total market cap is zero")` when the summed
market cap is zero; otherwise returns the dict of capped, redistributed
weights.  Because `initial_weights` is a dict, its keys are distinct, so
the capping loop followed by the redistribution loop assigns each key once
and the result is a pointwise map over the `initial_weights` entries. -/
def calculate_weights_with_cap (equities : List Equity) (cap_percentage : ℚ) :
    Except String (List (String × ℚ)) :=
  let total := totalMarketCap equities
  if total = 0 then Except.error "Total market cap is zero"
  else
    let iw := initialWeights equities
    Except.ok (iw.map (fun p =>
      (p.1, finalWeight cap_percentage (excessWeight cap_percentage iw)
        (nonCappedTotal cap_percentage iw) p.2)))

/-- Python `int(q)` on a rational: truncation toward zero. -/
def ratTrunc (q : ℚ) : ℤ :=
  if 0 ≤ q then ⌊q⌋ else ⌈q⌉

/-- The share count chosen for one ticker by `calculate_shares` (main.py
line 146): `int(allocation / (price * (1 + transaction_cost_rate)))` with
`allocation = investment_amount * weight`. -/
def shareCount (investment_amount transaction_cost_rate price weight : ℚ) : ℤ :=
  ratTrunc (investment_amount * weight / (price * (1 + transaction_cost_rate)))

/-- The `equity_dict` of `calculate_shares` (main.py line 122): equities
keyed by ticker, later records overwriting earlier ones. -/
def equityDict (equities : List Equity) : List (String × Equity) :=
  pyDict (equities.map (fun e => (e.ticker, e)))

/-- The main loop of `calculate_shares` (main.py lines 128-151) over the
weight entries: look each ticker up in `equity_dict`, fail on a
non-positive price, otherwise record the truncated share count and
accumulate `shares * price` into the running fee-exclusive total.  The
first failing ticker in iteration order aborts the whole computation. -/
def calcSharesAux (equities : List Equity)
    (investment_amount transaction_cost_rate : ℚ) :
    List (String × ℚ) → Except String (List (String × ℤ) × ℚ)
  | [] => Except.ok ([], 0)
  | (t, w) :: rest =>
    match dictLookup (equityDict equities) t with
    | none => Except.error ("KeyError: " ++ t)
    | some e =>
      if e.price ≤ 0 then
        Except.error ("Invalid price for " ++ t ++ ": " ++ toString e.price)
      else
        match calcSharesAux equities investment_amount transaction_cost_rate rest with
        | Except.error msg => Except.error msg
        | Except.ok (shares, tot) =>
          Except.ok
            ((t, shareCount investment_amount transaction_cost_rate e.price w) :: shares,
              (shareCount investment_amount transaction_cost_rate e.price w : ℚ) * e.price + tot)

/-- `calculate_shares(equities, investment_amount, transaction_cost_rate,
cap_percentage)` (main.py lines 98-157).  Returns the share dict, the
total cost including fees and the total cost excluding fees; raises on a
non-positive investment amount, and propagates any error from the weight
computation or from the per-ticker loop. -/
def calculate_shares (equities : List Equity)
    (investment_amount transaction_cost_rate cap_percentage : ℚ) :
    Except String (List (String × ℤ) × ℚ × ℚ) :=
  if investment_amount ≤ 0 then Except.error "Investment amount must be positive"
  else
    match calculate_weights_with_cap equities cap_percentage with
    | Except.error msg => Except.error msg
    | Except.ok weights =>
      match calcSharesAux equities investment_amount transaction_cost_rate weights with
      | Except.error msg => Except.error msg
      | Except.ok (shares_per_ticker, total_cost_excl_fees) =>
        Except.ok (shares_per_ticker,
          total_cost_excl_fees + total_cost_excl_fees * transaction_cost_rate,
          total_cost_excl_fees)

/-- `replicate_index_fund` (main.py lines 160-191) applied to already
loaded fund data: rejects an empty equity list with
`ValueError("Fund data is empty")`, then delegates to `calculate_shares`. -/
def replicate_index_fund (equities : List Equity)
    (investment_amount transaction_cost_rate cap_percentage : ℚ) :
    Except String (List (String × ℤ) × ℚ × ℚ) :=
  if equities.isEmpty then Except.error "Fund data is empty"
  else calculate_shares equities investment_amount transaction_cost_rate cap_percentage

/-- The sum of the weights in a weight dict. -/
def weightSum (ws : List (String × ℚ)) : ℚ :=
  (ws.map Prod.snd).sum

/-- The hypothesis of the weight-sum property: no post-redistribution
weight exceeds the cap, so the clamp of step 5 (the `min` at main.py
lines 91-93, applied only when the redistribution loop runs) never
reduces a weight. -/
def noSecondClamp (equities : List Equity) (cap : ℚ) : Prop :=
  ∀ p ∈ initialWeights equities,
    0 < excessWeight cap (initialWeights equities) →
    0 < nonCappedTotal cap (initialWeights equities) →
    p.2 ≤ cap →
    p.2 + excessWeight cap (initialWeights equities) *
      (p.2 / nonCappedTotal cap (initialWeights equities)) ≤ cap

instance exceptDecidableEq {ε α : Type} [DecidableEq ε] [DecidableEq α] :
    DecidableEq (Except ε α) := fun a b =>
  match a, b with
  | Except.error x, Except.error y =>
    if h : x = y then isTrue (by rw [h]) else isFalse (fun hc => h (Except.error.inj hc))
  | Except.error _, Except.ok _ => isFalse (fun hc => Except.noConfusion hc)
  | Except.ok _, Except.error _ => isFalse (fun hc => Except.noConfusion hc)
  | Except.ok x, Except.ok y =>
    if h : x = y then isTrue (by rw [h]) else isFalse (fun hc => h (Except.ok.inj hc))

example :
    calculate_weights_with_cap [⟨"A", 60, 1⟩, ⟨"B", 10, 1⟩, ⟨"C", 30, 1⟩] (1/2) =
      Except.ok [("A", 1/2), ("B", 1/8), ("C", 3/8)] := by
  simp only [calculate_weights_with_cap, initialWeights, totalMarketCap, pyDict,
    dictUpsert, excessWeight, nonCappedTotal, finalWeight, min_def, List.map,
    List.foldl, List.sum_cons, List.sum_nil, List.filter]
  norm_num

/-! ## Lemmas about the Python dict embedding -/

theorem mem_dictUpsert {α : Type} {p : String × α} {k : String} {v : α}
    {d : List (String × α)} (h : p ∈ dictUpsert k v d) : p = (k, v) ∨ p ∈ d := by
  induction d with
  | nil => simpa [dictUpsert] using h
  | cons q d ih =>
    by_cases hq : q.1 = k
    · simp only [dictUpsert, if_pos hq, List.mem_cons] at h
      rcases h with h | h
      · exact Or.inl h
      · exact Or.inr (List.mem_cons_of_mem q h)
    · simp only [dictUpsert, if_neg hq, List.mem_cons] at h
      rcases h with h | h
      · exact Or.inr (h ▸ List.mem_cons_self q d)
      · rcases ih h with h' | h'
        · exact Or.inl h'
        · exact Or.inr (List.mem_cons_of_mem q h')

theorem mem_keys_dictUpsert {α : Type} {a k : String} {v : α} {d : List (String × α)} :
    a ∈ (dictUpsert k v d).map Prod.fst ↔ a = k ∨ a ∈ d.map Prod.fst := by
  induction d with
  | nil => simp [dictUpsert]
  | cons q d ih =>
    by_cases hq : q.1 = k
    · simp only [dictUpsert, if_pos hq, List.map_cons, List.mem_cons]
      constructor
      · rintro (h | h)
        · exact Or.inl h
        · exact Or.inr (Or.inr h)
      · rintro (h | h | h)
        · exact Or.inl h
        · exact Or.inl (hq ▸ h)
        · exact Or.inr h
    · simp only [dictUpsert, if_neg hq, List.map_cons, List.mem_cons, ih]
      tauto

theorem nodup_keys_dictUpsert {α : Type} {k : String} {v : α} {d : List (String × α)}
    (h : (d.map Prod.fst).Nodup) : ((dictUpsert k v d).map Prod.fst).Nodup := by
  induction d with
  | nil => simp [dictUpsert]
  | cons q d ih =>
    simp only [List.map_cons, List.nodup_cons] at h
    by_cases hq : q.1 = k
    · simp only [dictUpsert, if_pos hq, List.map_cons, List.nodup_cons]
      exact ⟨hq ▸ h.1, h.2⟩
    · simp only [dictUpsert, if_neg hq, List.map_cons, List.nodup_cons]
      refine ⟨fun hmem => ?_, ih h.2⟩
      rcases mem_keys_dictUpsert.mp hmem with h' | h'
      · exact hq h'
      · exact h.1 h'

theorem dictUpsert_of_not_mem_keys {α : Type} {k : String} {v : α}
    {d : List (String × α)} (h : k ∉ d.map Prod.fst) :
    dictUpsert k v d = d ++ [(k, v)] := by
  induction d with
  | nil => simp [dictUpsert]
  | cons q d ih =>
    simp only [List.map_cons, List.mem_cons] at h
    push_neg at h
    have hne : ¬ (q.1 = k) := fun hq => h.1 hq.symm
    simp only [dictUpsert, if_neg hne, List.cons_append, List.cons.injEq, true_and]
    exact ih h.2

theorem foldl_dictUpsert_mem {α : Type} (l : List (String × α)) :
    ∀ (acc : List (String × α)) (p : String × α),
      p ∈ l.foldl (fun d q => dictUpsert q.1 q.2 d) acc → p ∈ acc ∨ p ∈ l := by
  induction l with
  | nil => intro acc p h; exact Or.inl h
  | cons q l ih =>
    intro acc p h
    simp only [List.foldl_cons] at h
    rcases ih _ p h with h' | h'
    · rcases mem_dictUpsert h' with h'' | h''
      · exact Or.inr (by simp [h''])
      · exact Or.inl h''
    · exact Or.inr (List.mem_cons_of_mem q h')

theorem mem_pyDict {α : Type} {l : List (String × α)} {p : String × α}
    (h : p ∈ pyDict l) : p ∈ l := by
  rcases foldl_dictUpsert_mem l [] p h with h' | h'
  · simp at h'
  · exact h'

theorem foldl_dictUpsert_keys_nodup {α : Type} (l : List (String × α)) :
    ∀ acc : List (String × α), (acc.map Prod.fst).Nodup →
      ((l.foldl (fun d q => dictUpsert q.1 q.2 d) acc).map Prod.fst).Nodup := by
  induction l with
  | nil => intro acc h; exact h
  | cons q l ih =>
    intro acc h
    simp only [List.foldl_cons]
    exact ih _ (nodup_keys_dictUpsert h)

theorem pyDict_keys_nodup {α : Type} (l : List (String × α)) :
    ((pyDict l).map Prod.fst).Nodup :=
  foldl_dictUpsert_keys_nodup l [] (by simp)

theorem mem_keys_foldl_dictUpsert {α : Type} (l : List (String × α)) :
    ∀ (acc : List (String × α)) (a : String),
      (a ∈ (l.foldl (fun d q => dictUpsert q.1 q.2 d) acc).map Prod.fst ↔
        a ∈ acc.map Prod.fst ∨ a ∈ l.map Prod.fst) := by
  induction l with
  | nil => intro acc a; simp
  | cons q l ih =>
    intro acc a
    simp only [List.foldl_cons, List.map_cons, List.mem_cons, ih, mem_keys_dictUpsert]
    tauto

theorem mem_keys_pyDict {α : Type} {l : List (String × α)} {a : String} :
    a ∈ (pyDict l).map Prod.fst ↔ a ∈ l.map Prod.fst := by
  rw [pyDict, mem_keys_foldl_dictUpsert]
  simp

theorem foldl_dictUpsert_eq_append {α : Type} (l : List (String × α)) :
    ∀ acc : List (String × α), (l.map Prod.fst).Nodup →
      (∀ a ∈ l.map Prod.fst, a ∉ acc.map Prod.fst) →
      l.foldl (fun d q => dictUpsert q.1 q.2 d) acc = acc ++ l := by
  induction l with
  | nil => intro acc _ _; simp
  | cons q l ih =>
    intro acc hnd hdisj
    simp only [List.map_cons, List.nodup_cons] at hnd
    simp only [List.foldl_cons]
    rw [dictUpsert_of_not_mem_keys (hdisj q.1 (by simp)), ih _ hnd.2, List.append_assoc]
    · simp
    · intro a ha
      simp only [List.map_append, List.mem_append, List.map_cons]
      rintro (h | h)
      · exact hdisj a (by simp [ha]) h
      · simp only [List.map_nil, List.mem_singleton] at h
        exact hnd.1 (h ▸ ha)

theorem pyDict_eq_self {α : Type} {l : List (String × α)}
    (h : (l.map Prod.fst).Nodup) : pyDict l = l := by
  rw [pyDict, foldl_dictUpsert_eq_append l [] h (by simp)]
  simp

theorem dictLookup_mem {α : Type} {d : List (String × α)} {k : String} {v : α}
    (h : dictLookup d k = some v) : (k, v) ∈ d := by
  rw [dictLookup, Option.map_eq_some'] at h
  obtain ⟨p, hp, hv⟩ := h
  have hmem := List.mem_of_find?_eq_some hp
  have hkey := List.find?_some hp
  simp only [beq_iff_eq] at hkey
  have : p = (k, v) := by
    cases p
    simp only [Prod.mk.injEq]
    exact ⟨hkey, hv⟩
  exact this ▸ hmem

theorem dictLookup_isSome_of_mem_keys {α : Type} {d : List (String × α)} {k : String}
    (h : k ∈ d.map Prod.fst) : ∃ v, dictLookup d k = some v := by
  rw [List.mem_map] at h
  obtain ⟨p, hp, hk⟩ := h
  have : ∃ q, d.find? (fun q => q.1 == k) = some q := by
    rw [← Option.isSome_iff_exists, List.find?_isSome]
    exact ⟨p, hp, by simp [hk]⟩
  obtain ⟨q, hq⟩ := this
  exact ⟨q.2, by simp [dictLookup, hq]⟩

/-! ## Arithmetic lemmas about the capping and redistribution sums -/

theorem sum_map_div (l : List ℚ) (c : ℚ) :
    (l.map (fun x => x / c)).sum = l.sum / c := by
  induction l with
  | nil => simp
  | cons x l ih => simp only [List.map_cons, List.sum_cons, ih, add_div]

theorem sum_redistribute (c e n : ℚ) (vs : List ℚ) :
    (vs.map (fun w => if c < w then c else w + e * (w / n))).sum =
      vs.sum - (vs.map (fun w => if c < w then w - c else 0)).sum
        + e / n * (vs.map (fun w => if c < w then 0 else w)).sum := by
  induction vs with
  | nil => simp
  | cons w vs ih =>
    simp only [List.map_cons, List.sum_cons, ih]
    by_cases h : c < w
    · rw [if_pos h, if_pos h, if_pos h]; ring
    · rw [if_neg h, if_neg h, if_neg h]; ring

theorem nonCapped_filter_sum (c : ℚ) (vs : List ℚ) :
    (vs.filter (fun w => w ≤ c)).sum = (vs.map (fun w => if c < w then 0 else w)).sum := by
  induction vs with
  | nil => simp
  | cons w vs ih =>
    by_cases h : w ≤ c
    · rw [List.filter_cons_of_pos (by simpa using h)]
      simp only [List.sum_cons, List.map_cons, if_neg (not_lt.mpr h), ih]
    · rw [List.filter_cons_of_neg (by simpa using h)]
      simp only [List.map_cons, List.sum_cons, if_pos (not_le.mp h), zero_add, ih]

theorem sum_preclamp (c : ℚ) (vs : List ℚ)
    (hn : (vs.filter (fun w => w ≤ c)).sum ≠ 0) :
    (vs.map (fun w => if c < w then c
      else w + (vs.map (fun w' => if c < w' then w' - c else 0)).sum *
        (w / (vs.filter (fun w' => w' ≤ c)).sum))).sum = vs.sum := by
  rw [sum_redistribute, nonCapped_filter_sum] at *
  rw [div_mul_cancel₀ _ hn]
  ring

theorem excess_term_nonneg (c w : ℚ) : 0 ≤ (if c < w then w - c else 0) := by
  by_cases h : c < w
  · rw [if_pos h]; linarith
  · rw [if_neg h]

theorem excess_sum_nonneg (c : ℚ) (vs : List ℚ) :
    0 ≤ (vs.map (fun w => if c < w then w - c else 0)).sum := by
  apply List.sum_nonneg
  intro x hx
  obtain ⟨w, _, hw⟩ := List.mem_map.mp hx
  exact hw ▸ excess_term_nonneg c w

theorem no_capped_of_excess_zero {c : ℚ} {vs : List ℚ}
    (h : (vs.map (fun w => if c < w then w - c else 0)).sum = 0) :
    ∀ w ∈ vs, ¬ c < w := by
  intro w hw hcw
  have hterm : (if c < w then w - c else 0) ∈ vs.map (fun w => if c < w then w - c else 0) :=
    List.mem_map.mpr ⟨w, hw, rfl⟩
  have hle := List.single_le_sum
    (fun x hx => by
      obtain ⟨w', _, hw'⟩ := List.mem_map.mp hx
      exact hw' ▸ excess_term_nonneg c w') _ hterm
  rw [h, if_pos hcw] at hle
  linarith

/-! ## Bridges between the pair-level and value-level views -/

theorem filter_map_snd (cap : ℚ) (iw : List (String × ℚ)) :
    (iw.filter (fun p => p.2 ≤ cap)).map Prod.snd =
      (iw.map Prod.snd).filter (fun w => w ≤ cap) := by
  induction iw with
  | nil => rfl
  | cons p iw ih =>
    by_cases h : p.2 ≤ cap
    · rw [List.filter_cons_of_pos (by simpa using h), List.map_cons, List.map_cons,
        List.filter_cons_of_pos (by simpa using h), ih]
    · rw [List.filter_cons_of_neg (by simpa using h), List.map_cons,
        List.filter_cons_of_neg (by simpa using h), ih]

theorem excessWeight_eq (cap : ℚ) (iw : List (String × ℚ)) :
    excessWeight cap iw =
      ((iw.map Prod.snd).map (fun w => if cap < w then w - cap else 0)).sum := by
  rw [excessWeight, List.map_map]
  rfl

theorem nonCappedTotal_eq (cap : ℚ) (iw : List (String × ℚ)) :
    nonCappedTotal cap iw = ((iw.map Prod.snd).filter (fun w => w ≤ cap)).sum := by
  rw [nonCappedTotal, filter_map_snd]

theorem weightSum_map_pairs (iw : List (String × ℚ)) (g : ℚ → ℚ) :
    weightSum (iw.map (fun p => (p.1, g p.2))) = ((iw.map Prod.snd).map g).sum := by
  rw [weightSum, List.map_map, List.map_map]
  rfl

theorem cwwc_ok_shape {equities : List Equity} {cap : ℚ} {ws : List (String × ℚ)}
    (h : calculate_weights_with_cap equities cap = Except.ok ws) :
    totalMarketCap equities ≠ 0 ∧
      ws = (initialWeights equities).map (fun p =>
        (p.1, finalWeight cap (excessWeight cap (initialWeights equities))
          (nonCappedTotal cap (initialWeights equities)) p.2)) := by
  by_cases ht : totalMarketCap equities = 0
  · simp [calculate_weights_with_cap, ht] at h
  · simp only [calculate_weights_with_cap, if_neg ht] at h
    exact ⟨ht, (Except.ok.inj h).symm⟩

theorem cwwc_error_of_total_zero {equities : List Equity} {cap : ℚ}
    (ht : totalMarketCap equities = 0) :
    calculate_weights_with_cap equities cap = Except.error "Total market cap is zero" := by
  simp [calculate_weights_with_cap, ht]

theorem mem_initialWeights {equities : List Equity} {p : String × ℚ}
    (h : p ∈ initialWeights equities) :
    ∃ e ∈ equities, p = (e.ticker, e.market_cap / totalMarketCap equities) := by
  obtain ⟨e, he, hp⟩ := List.mem_map.mp (mem_pyDict h)
  exact ⟨e, he, hp.symm⟩

theorem mem_keys_initialWeights {equities : List Equity} {a : String} :
    a ∈ (initialWeights equities).map Prod.fst ↔ a ∈ equities.map Equity.ticker := by
  rw [initialWeights, mem_keys_pyDict, List.map_map]
  exact Iff.rfl

theorem initialWeights_eq_of_nodup {equities : List Equity}
    (hnd : (equities.map Equity.ticker).Nodup) :
    initialWeights equities =
      equities.map (fun e => (e.ticker, e.market_cap / totalMarketCap equities)) := by
  apply pyDict_eq_self
  rw [List.map_map]
  exact hnd

theorem initialWeights_sum {equities : List Equity}
    (hnd : (equities.map Equity.ticker).Nodup) (ht : totalMarketCap equities ≠ 0) :
    ((initialWeights equities).map Prod.snd).sum = 1 := by
  rw [initialWeights_eq_of_nodup hnd, List.map_map]
  have heq : List.map (Prod.snd ∘ fun e =>
      (e.ticker, e.market_cap / totalMarketCap equities)) equities
      = (equities.map Equity.market_cap).map (fun x => x / totalMarketCap equities) := by
    rw [List.map_map]
    rfl
  rw [heq, sum_map_div]
  exact div_self ht

/-! ## Concrete evaluations of the pipeline -/

theorem cwwcX :
    calculate_weights_with_cap [⟨"X", 100, 20⟩] (1/2) = Except.ok [("X", 1/2)] := by
  simp only [calculate_weights_with_cap, initialWeights, totalMarketCap, pyDict,
    dictUpsert, excessWeight, nonCappedTotal, finalWeight, min_def, List.map,
    List.foldl, List.sum_cons, List.sum_nil, List.filter]
  norm_num

theorem cwwcX0 :
    calculate_weights_with_cap [⟨"X", 100, 0⟩] (1/2) = Except.ok [("X", 1/2)] := by
  simp only [calculate_weights_with_cap, initialWeights, totalMarketCap, pyDict,
    dictUpsert, excessWeight, nonCappedTotal, finalWeight, min_def, List.map,
    List.foldl, List.sum_cons, List.sum_nil, List.filter]
  norm_num

theorem cwwcAB0 :
    calculate_weights_with_cap [⟨"A", 100, 10⟩, ⟨"B", 0, 10⟩] (1/2) =
      Except.ok [("A", 1/2), ("B", 0)] := by
  simp only [calculate_weights_with_cap, initialWeights, totalMarketCap, pyDict,
    dictUpsert, excessWeight, nonCappedTotal, finalWeight, min_def, List.map,
    List.foldl, List.sum_cons, List.sum_nil, List.filter]
  norm_num

theorem cwwcAB :
    calculate_weights_with_cap [⟨"A", 60, 1⟩, ⟨"B", 40, 1⟩] (7/10) =
      Except.ok [("A", 3/5), ("B", 2/5)] := by
  simp only [calculate_weights_with_cap, initialWeights, totalMarketCap, pyDict,
    dictUpsert, excessWeight, nonCappedTotal, finalWeight, min_def, List.map,
    List.foldl, List.sum_cons, List.sum_nil, List.filter]
  norm_num

theorem cwwcABC_a :
    calculate_weights_with_cap [⟨"A", 60, 1⟩, ⟨"B", 10, 1⟩, ⟨"C", 30, 1⟩] (7/10) =
      Except.ok [("A", 3/5), ("B", 1/10), ("C", 3/10)] := by
  simp only [calculate_weights_with_cap, initialWeights, totalMarketCap, pyDict,
    dictUpsert, excessWeight, nonCappedTotal, finalWeight, min_def, List.map,
    List.foldl, List.sum_cons, List.sum_nil, List.filter]
  norm_num

theorem cwwcABC_b :
    calculate_weights_with_cap [⟨"A", 60, 1⟩, ⟨"B", 10, 1⟩, ⟨"C", 30, 1⟩] (1/2) =
      Except.ok [("A", 1/2), ("B", 1/8), ("C", 3/8)] := by
  simp only [calculate_weights_with_cap, initialWeights, totalMarketCap, pyDict,
    dictUpsert, excessWeight, nonCappedTotal, finalWeight, min_def, List.map,
    List.foldl, List.sum_cons, List.sum_nil, List.filter]
  norm_num

theorem cwwcABC_c :
    calculate_weights_with_cap [⟨"A", 60, 1⟩, ⟨"B", 10, 1⟩, ⟨"C", 30, 1⟩] (1/4) =
      Except.ok [("A", 1/4), ("B", 1/4), ("C", 1/4)] := by
  simp only [calculate_weights_with_cap, initialWeights, totalMarketCap, pyDict,
    dictUpsert, excessWeight, nonCappedTotal, finalWeight, min_def, List.map,
    List.foldl, List.sum_cons, List.sum_nil, List.filter]
  norm_num

theorem cwwcA_capTwo :
    calculate_weights_with_cap [⟨"A", 100, 10⟩] 2 = Except.ok [("A", 1)] := by
  simp only [calculate_weights_with_cap, initialWeights, totalMarketCap, pyDict,
    dictUpsert, excessWeight, nonCappedTotal, finalWeight, min_def, List.map,
    List.foldl, List.sum_cons, List.sum_nil, List.filter]
  norm_num

theorem lookupX :
    dictLookup (equityDict [⟨"X", 100, 20⟩]) "X" = some ⟨"X", 100, 20⟩ := by
  rfl

theorem scX : shareCount 1000 (3/100) 20 (1/2) = 24 := by
  rw [shareCount, show (1000:ℚ) * (1/2) / (20 * (1 + 3/100)) = 2500/103 by norm_num,
    ratTrunc, if_pos (by norm_num : (0:ℚ) ≤ 2500/103)]
  rw [Int.floor_eq_iff]
  constructor <;> norm_num

theorem runX :
    calculate_shares [⟨"X", 100, 20⟩] 1000 (3/100) (1/2) =
      Except.ok ([("X", 24)], 2472/5, 480) := by
  rw [calculate_shares, if_neg (by norm_num : ¬ (1000:ℚ) ≤ 0)]
  simp only [cwwcX]
  rw [calcSharesAux]
  simp only [lookupX]
  rw [if_neg (by norm_num : ¬ (Equity.mk "X" 100 20).price ≤ 0)]
  rw [calcSharesAux]
  have hsc : shareCount 1000 (3/100) (Equity.mk "X" 100 20).price (1/2) = 24 := scX
  simp only [hsc]
  norm_num

/-! ## Bounds and sum facts for the final weights -/

theorem sum_map_congr {α : Type} {l : List α} {f g : α → ℚ}
    (h : ∀ a ∈ l, f a = g a) : (l.map f).sum = (l.map g).sum := by
  induction l with
  | nil => rfl
  | cons a l ih =>
    simp only [List.map_cons, List.sum_cons, h a (List.mem_cons_self a l)]
    rw [ih (fun a ha => h a (List.mem_cons_of_mem _ ha))]

theorem finalWeight_le_cap (cap excess nct w : ℚ) : finalWeight cap excess nct w ≤ cap := by
  rw [finalWeight]
  by_cases h1 : cap < w
  · rw [if_pos h1]
  · rw [if_neg h1]
    by_cases h2 : 0 < excess ∧ 0 < nct
    · rw [if_pos h2]; exact min_le_right _ _
    · rw [if_neg h2]; exact not_lt.mp h1

theorem finalWeight_nonneg (cap excess nct w : ℚ) (hcap : 0 < cap) (hw : 0 ≤ w)
    (hex : 0 ≤ excess) : 0 ≤ finalWeight cap excess nct w := by
  rw [finalWeight]
  by_cases h1 : cap < w
  · rw [if_pos h1]; exact hcap.le
  · rw [if_neg h1]
    by_cases h2 : 0 < excess ∧ 0 < nct
    · rw [if_pos h2]
      exact le_min (add_nonneg hw (mul_nonneg hex (div_nonneg hw h2.2.le))) hcap.le
    · rw [if_neg h2]; exact hw

theorem cwwc_ok_weight_bounds {equities : List Equity} {cap : ℚ}
    {ws : List (String × ℚ)} (hmc : ∀ e ∈ equities, 0 ≤ e.market_cap)
    (htpos : 0 < totalMarketCap equities) (hcap : 0 < cap)
    (h : calculate_weights_with_cap equities cap = Except.ok ws) :
    ∀ p ∈ ws, 0 ≤ p.2 ∧ p.2 ≤ cap ∧ p.1 ∈ equities.map Equity.ticker := by
  obtain ⟨ht, hws⟩ := cwwc_ok_shape h
  intro p hp
  rw [hws] at hp
  obtain ⟨q, hq, hpq⟩ := List.mem_map.mp hp
  obtain ⟨e, he, hqe⟩ := mem_initialWeights hq
  have hE : 0 ≤ excessWeight cap (initialWeights equities) := by
    rw [excessWeight_eq]
    exact excess_sum_nonneg cap _
  have hw0 : 0 ≤ q.2 := by
    rw [hqe]
    exact div_nonneg (hmc e he) htpos.le
  refine hpq ▸ ⟨finalWeight_nonneg cap _ _ q.2 hcap hw0 hE,
    finalWeight_le_cap cap _ _ q.2, ?_⟩
  rw [hqe]
  exact List.mem_map.mpr ⟨e, he, rfl⟩

theorem cwwc_weightSum_le_one {equities : List Equity} {cap : ℚ}
    {ws : List (String × ℚ)} (hnd : (equities.map Equity.ticker).Nodup)
    (h : calculate_weights_with_cap equities cap = Except.ok ws) :
    weightSum ws ≤ 1 := by
  obtain ⟨ht, hws⟩ := cwwc_ok_shape h
  rw [hws, weightSum_map_pairs]
  have hsum : ((initialWeights equities).map Prod.snd).sum = 1 :=
    initialWeights_sum hnd ht
  by_cases hg : 0 < excessWeight cap (initialWeights equities) ∧
      0 < nonCappedTotal cap (initialWeights equities)
  · have hstep : (((initialWeights equities).map Prod.snd).map
        (fun w => finalWeight cap (excessWeight cap (initialWeights equities))
          (nonCappedTotal cap (initialWeights equities)) w)).sum ≤
        (((initialWeights equities).map Prod.snd).map
          (fun w => if cap < w then cap
            else w + excessWeight cap (initialWeights equities) *
              (w / nonCappedTotal cap (initialWeights equities)))).sum := by
      apply List.sum_le_sum
      intro w _
      rw [finalWeight]
      by_cases h1 : cap < w
      · rw [if_pos h1, if_pos h1]
      · rw [if_neg h1, if_neg h1, if_pos hg]
        exact min_le_left _ _
    refine hstep.trans ?_
    rw [excessWeight_eq, nonCappedTotal_eq]
    rw [sum_preclamp cap _ (by rw [← nonCappedTotal_eq]; exact hg.2.ne'), hsum]
  · have hstep : (((initialWeights equities).map Prod.snd).map
        (fun w => finalWeight cap (excessWeight cap (initialWeights equities))
          (nonCappedTotal cap (initialWeights equities)) w)).sum ≤
        (((initialWeights equities).map Prod.snd).map (fun w => w)).sum := by
      apply List.sum_le_sum
      intro w _
      rw [finalWeight]
      by_cases h1 : cap < w
      · rw [if_pos h1]; exact h1.le
      · rw [if_neg h1, if_neg hg]
    refine hstep.trans ?_
    rw [List.map_id']
    exact hsum.le

theorem cwwc_weightSum_eq_one_core {equities : List Equity} {cap : ℚ}
    {ws : List (String × ℚ)} (hnd : (equities.map Equity.ticker).Nodup)
    (h : calculate_weights_with_cap equities cap = Except.ok ws)
    (hns : noSecondClamp equities cap)
    (hred : excessWeight cap (initialWeights equities) = 0 ∨
      0 < nonCappedTotal cap (initialWeights equities)) :
    weightSum ws = 1 := by
  obtain ⟨ht, hws⟩ := cwwc_ok_shape h
  rw [hws, weightSum_map_pairs]
  have hsum : ((initialWeights equities).map Prod.snd).sum = 1 :=
    initialWeights_sum hnd ht
  have hE : 0 ≤ excessWeight cap (initialWeights equities) := by
    rw [excessWeight_eq]
    exact excess_sum_nonneg cap _
  rcases eq_or_lt_of_le hE with hE0 | hEpos
  · have hfix : ∀ w ∈ (initialWeights equities).map Prod.snd,
        finalWeight cap (excessWeight cap (initialWeights equities))
          (nonCappedTotal cap (initialWeights equities)) w = w := by
      intro w hw
      have hnc : ¬ cap < w := by
        apply @no_capped_of_excess_zero cap ((initialWeights equities).map Prod.snd)
        · rw [← excessWeight_eq]; exact hE0.symm
        · exact hw
      rw [finalWeight, if_neg hnc, if_neg]
      rintro ⟨hEp, -⟩
      rw [← hE0] at hEp
      exact lt_irrefl _ hEp
    rw [sum_map_congr hfix]
    simp only [List.map_id']
    exact hsum
  · rcases hred with hE0 | hN
    · rw [← hE0] at hEpos
      exact absurd hEpos (lt_irrefl _)
    · have hfix : ∀ w ∈ (initialWeights equities).map Prod.snd,
          finalWeight cap (excessWeight cap (initialWeights equities))
            (nonCappedTotal cap (initialWeights equities)) w =
          (if cap < w then cap
            else w + excessWeight cap (initialWeights equities) *
              (w / nonCappedTotal cap (initialWeights equities))) := by
        intro w hw
        by_cases h1 : cap < w
        · rw [finalWeight, if_pos h1, if_pos h1]
        · obtain ⟨q, hq, hqw⟩ := List.mem_map.mp hw
          rw [finalWeight, if_neg h1, if_neg h1, if_pos ⟨hEpos, hN⟩]
          exact min_eq_left (hqw ▸ hns q hq hEpos hN (hqw ▸ not_lt.mp h1))
      rw [sum_map_congr hfix]
      rw [excessWeight_eq, nonCappedTotal_eq]
      rw [sum_preclamp cap _ (by rw [← nonCappedTotal_eq]; exact hN.ne'), hsum]

/-! ## Lemmas about the share allocation loop -/

theorem ratTrunc_mul_le {a b : ℚ} (ha : 0 ≤ a) (hb : 0 < b) :
    (ratTrunc (a / b) : ℚ) * b ≤ a := by
  rw [ratTrunc, if_pos (div_nonneg ha hb.le)]
  calc (⌊a / b⌋ : ℚ) * b ≤ a / b * b :=
        mul_le_mul_of_nonneg_right (Int.floor_le _) hb.le
    _ = a := div_mul_cancel₀ a hb.ne'

theorem shareCount_spend_le {inv fee p w : ℚ} (hinv : 0 < inv) (hfee : 0 ≤ fee)
    (hp : 0 < p) (hw : 0 ≤ w) :
    (shareCount inv fee p w : ℚ) * p * (1 + fee) ≤ inv * w := by
  have hb : 0 < p * (1 + fee) := mul_pos hp (by linarith)
  rw [shareCount, mul_assoc]
  exact ratTrunc_mul_le (mul_nonneg hinv.le hw) hb

theorem calcSharesAux_ok_mem {equities : List Equity} {inv fee : ℚ}
    {ws : List (String × ℚ)} {sh : List (String × ℤ)} {tot : ℚ}
    (h : calcSharesAux equities inv fee ws = Except.ok (sh, tot)) :
    ∀ t s, (t, s) ∈ sh → ∃ w e, (t, w) ∈ ws ∧
      dictLookup (equityDict equities) t = some e ∧ 0 < e.price ∧
      s = shareCount inv fee e.price w := by
  induction ws generalizing sh tot with
  | nil =>
    rw [calcSharesAux] at h
    obtain ⟨h1, -⟩ := Prod.mk.injEq _ _ _ _ ▸ Except.ok.inj h
    intro t s hts
    rw [← h1] at hts
    simp at hts
  | cons q rest ih =>
    obtain ⟨t0, w0⟩ := q
    rw [calcSharesAux] at h
    cases hlk : dictLookup (equityDict equities) t0 with
    | none =>
      simp only [hlk] at h
      exact Except.noConfusion h
    | some e0 =>
      simp only [hlk] at h
      by_cases hpr : e0.price ≤ 0
      · rw [if_pos hpr] at h
        exact Except.noConfusion h
      · rw [if_neg hpr] at h
        cases hrec : calcSharesAux equities inv fee rest with
        | error msg =>
          simp only [hrec] at h
          exact Except.noConfusion h
        | ok pr =>
          obtain ⟨sh', tot'⟩ := pr
          simp only [hrec] at h
          obtain ⟨h1, -⟩ := Prod.mk.injEq _ _ _ _ ▸ Except.ok.inj h
          intro t s hts
          rw [← h1] at hts
          rcases List.mem_cons.mp hts with he | hm
          · obtain ⟨het, hes⟩ := Prod.mk.injEq _ _ _ _ ▸ he
            refine ⟨w0, e0, ?_, ?_, not_le.mp hpr, hes⟩
            · rw [het]; exact List.mem_cons_self _ _
            · rw [het]; exact hlk
          · obtain ⟨w, e, hw, hl, hp, hs⟩ := ih hrec t s hm
            exact ⟨w, e, List.mem_cons_of_mem _ hw, hl, hp, hs⟩

theorem calcSharesAux_spend_le {equities : List Equity} {inv fee : ℚ}
    {ws : List (String × ℚ)} {sh : List (String × ℤ)} {tot : ℚ}
    (h : calcSharesAux equities inv fee ws = Except.ok (sh, tot))
    (hw : ∀ p ∈ ws, 0 ≤ p.2) (hinv : 0 < inv) (hfee : 0 ≤ fee) :
    tot * (1 + fee) ≤ inv * (ws.map Prod.snd).sum := by
  induction ws generalizing sh tot with
  | nil =>
    rw [calcSharesAux] at h
    obtain ⟨-, h2⟩ := Prod.mk.injEq _ _ _ _ ▸ Except.ok.inj h
    rw [← h2]
    simp
  | cons q rest ih =>
    obtain ⟨t0, w0⟩ := q
    rw [calcSharesAux] at h
    cases hlk : dictLookup (equityDict equities) t0 with
    | none =>
      simp only [hlk] at h
      exact Except.noConfusion h
    | some e0 =>
      simp only [hlk] at h
      by_cases hpr : e0.price ≤ 0
      · rw [if_pos hpr] at h
        exact Except.noConfusion h
      · rw [if_neg hpr] at h
        cases hrec : calcSharesAux equities inv fee rest with
        | error msg =>
          simp only [hrec] at h
          exact Except.noConfusion h
        | ok pr =>
          obtain ⟨sh', tot'⟩ := pr
          simp only [hrec] at h
          obtain ⟨-, h2⟩ := Prod.mk.injEq _ _ _ _ ▸ Except.ok.inj h
          have hhead : (shareCount inv fee e0.price w0 : ℚ) * e0.price * (1 + fee) ≤
              inv * w0 :=
            shareCount_spend_le hinv hfee (not_le.mp hpr)
              (hw (t0, w0) (List.mem_cons_self _ _))
          have htail : tot' * (1 + fee) ≤ inv * (rest.map Prod.snd).sum :=
            ih hrec (fun p hp => hw p (List.mem_cons_of_mem _ hp))
          rw [← h2, List.map_cons, List.sum_cons]
          calc ((shareCount inv fee e0.price w0 : ℚ) * e0.price + tot') * (1 + fee)
              = (shareCount inv fee e0.price w0 : ℚ) * e0.price * (1 + fee) +
                tot' * (1 + fee) := by ring
            _ ≤ inv * w0 + inv * (rest.map Prod.snd).sum := add_le_add hhead htail
            _ = inv * (w0 + (rest.map Prod.snd).sum) := by ring

theorem calcSharesAux_badprice {equities : List Equity} {inv fee : ℚ}
    {ws : List (String × ℚ)}
    (hall : ∀ p ∈ ws, ∃ e, dictLookup (equityDict equities) p.1 = some e)
    (hbad : ∃ p ∈ ws, ∃ e, dictLookup (equityDict equities) p.1 = some e ∧
      e.price ≤ 0) :
    ∃ t e, dictLookup (equityDict equities) t = some e ∧ e.price ≤ 0 ∧
      calcSharesAux equities inv fee ws =
        Except.error ("Invalid price for " ++ t ++ ": " ++ toString e.price) := by
  induction ws with
  | nil => simp at hbad
  | cons q rest ih =>
    obtain ⟨t0, w0⟩ := q
    obtain ⟨e0, hlk0⟩ := hall (t0, w0) (List.mem_cons_self _ _)
    have hlk : dictLookup (equityDict equities) t0 = some e0 := hlk0
    by_cases hpr : e0.price ≤ 0
    · refine ⟨t0, e0, hlk, hpr, ?_⟩
      rw [calcSharesAux]
      simp only [hlk]
      rw [if_pos hpr]
    · have hbad' : ∃ p ∈ rest, ∃ e, dictLookup (equityDict equities) p.1 = some e ∧
          e.price ≤ 0 := by
        obtain ⟨p, hp, e, hle, hpe⟩ := hbad
        rcases List.mem_cons.mp hp with he | hm
        · rw [he] at hle
          rw [hle] at hlk0
          exact absurd (Option.some.inj hlk0 ▸ hpe) hpr
        · exact ⟨p, hm, e, hle, hpe⟩
      obtain ⟨t, e, hle, hpe, herr⟩ :=
        ih (fun p hp => hall p (List.mem_cons_of_mem _ hp)) hbad'
      refine ⟨t, e, hle, hpe, ?_⟩
      rw [calcSharesAux]
      simp only [hlk]
      rw [if_neg hpr]
      simp only [herr]

theorem calculate_shares_ok_shape {equities : List Equity} {inv fee cap : ℚ}
    {sh : List (String × ℤ)} {inc exc : ℚ}
    (h : calculate_shares equities inv fee cap = Except.ok (sh, inc, exc)) :
    0 < inv ∧ ∃ ws, calculate_weights_with_cap equities cap = Except.ok ws ∧
      calcSharesAux equities inv fee ws = Except.ok (sh, exc) ∧
      inc = exc + exc * fee := by
  by_cases hi : inv ≤ 0
  · rw [calculate_shares, if_pos hi] at h
    exact Except.noConfusion h
  · rw [calculate_shares, if_neg hi] at h
    cases hws : calculate_weights_with_cap equities cap with
    | error msg =>
      simp only [hws] at h
      exact Except.noConfusion h
    | ok ws =>
      simp only [hws] at h
      cases haux : calcSharesAux equities inv fee ws with
      | error msg =>
        simp only [haux] at h
        exact Except.noConfusion h
      | ok pr =>
        obtain ⟨sh', tot'⟩ := pr
        simp only [haux] at h
        obtain ⟨h1, h23⟩ := Prod.mk.injEq _ _ _ _ ▸ Except.ok.inj h
        obtain ⟨h2, h3⟩ := Prod.mk.injEq _ _ _ _ ▸ h23
        refine ⟨not_le.mp hi, ws, rfl, ?_, ?_⟩
        · rw [← h1, ← h3]; exact haux
        · rw [← h2, ← h3]

theorem mem_keys_equityDict {equities : List Equity} {a : String} :
    a ∈ (equityDict equities).map Prod.fst ↔ a ∈ equities.map Equity.ticker := by
  rw [equityDict, mem_keys_pyDict, List.map_map]
  exact Iff.rfl

theorem cwwc_ok_lookup {equities : List Equity} {cap : ℚ} {ws : List (String × ℚ)}
    (h : calculate_weights_with_cap equities cap = Except.ok ws) :
    ∀ p ∈ ws, ∃ e, dictLookup (equityDict equities) p.1 = some e := by
  obtain ⟨-, hws⟩ := cwwc_ok_shape h
  intro p hp
  rw [hws] at hp
  obtain ⟨q, hq, hpq⟩ := List.mem_map.mp hp
  apply dictLookup_isSome_of_mem_keys
  rw [mem_keys_equityDict, ← hpq]
  exact mem_keys_initialWeights.mp (List.mem_map.mpr ⟨q, hq, rfl⟩)

theorem cwwc_ok_keys_nodup {equities : List Equity} {cap : ℚ}
    {ws : List (String × ℚ)}
    (h : calculate_weights_with_cap equities cap = Except.ok ws) :
    (ws.map Prod.fst).Nodup := by
  obtain ⟨-, hws⟩ := cwwc_ok_shape h
  rw [hws, List.map_map]
  exact pyDict_keys_nodup _

theorem nodup_keys_mem_unique {α : Type} {d : List (String × α)} {t : String}
    {v w : α} (hnd : (d.map Prod.fst).Nodup) (h1 : (t, v) ∈ d) (h2 : (t, w) ∈ d) :
    v = w := by
  induction d with
  | nil => simp at h1
  | cons q d ih =>
    simp only [List.map_cons, List.nodup_cons] at hnd
    rcases List.mem_cons.mp h1 with e1 | m1 <;> rcases List.mem_cons.mp h2 with e2 | m2
    · rw [← e1] at e2; exact (Prod.mk.injEq _ _ _ _ ▸ e2.symm).2
    · exact absurd (List.mem_map.mpr ⟨(t, w), m2, by simp [← e1]⟩) hnd.1
    · exact absurd (List.mem_map.mpr ⟨(t, v), m1, by simp [← e2]⟩) hnd.1
    · exact ih hnd.2 m1 m2

/-! ## Auxiliary concrete facts for the claims -/

theorem iwABC :
    initialWeights [⟨"A", 60, 1⟩, ⟨"B", 10, 1⟩, ⟨"C", 30, 1⟩] =
      [("A", 3/5), ("B", 1/10), ("C", 3/10)] := by
  simp only [initialWeights, totalMarketCap, pyDict, dictUpsert, List.map,
    List.foldl, List.sum_cons, List.sum_nil]
  norm_num
  simp

theorem nscAB0 : noSecondClamp [⟨"A", 100, 10⟩, ⟨"B", 0, 10⟩] (1/2) := by
  intro p hp hE hN
  exfalso
  have h0 : nonCappedTotal (1/2) (initialWeights [⟨"A", 100, 10⟩, ⟨"B", 0, 10⟩]) = 0 := by
    simp only [initialWeights, totalMarketCap, pyDict, dictUpsert, nonCappedTotal,
      List.map, List.foldl, List.sum_cons, List.sum_nil, List.filter]
    norm_num
  rw [h0] at hN
  exact lt_irrefl 0 hN

theorem nscAB : noSecondClamp [⟨"A", 60, 1⟩, ⟨"B", 40, 1⟩] (7/10) := by
  intro p hp hE hN
  exfalso
  have h0 : excessWeight (7/10) (initialWeights [⟨"A", 60, 1⟩, ⟨"B", 40, 1⟩]) = 0 := by
    simp only [initialWeights, totalMarketCap, pyDict, dictUpsert, excessWeight,
      List.map, List.foldl, List.sum_cons, List.sum_nil]
    norm_num
  rw [h0] at hE
  exact lt_irrefl 0 hE

/-! ## The claims -/


/-- C1 (claim as stated, refuted at a concrete input): the input
`[A: market cap 100, B: market cap 0]` with cap `1/2` is non-empty, has
positive total market cap, and the step-5 clamp never reduces a weight
(the redistribution loop does not even run, because the non-capped group,
just B, has zero total initial weight), yet the returned weights sum to
`1/2`, not `1`: the excess stripped from A is silently lost. -/
theorem claim1_counterexample :
    ([⟨"A", 100, 10⟩, ⟨"B", 0, 10⟩] : List Equity) ≠ [] ∧
    0 < totalMarketCap [⟨"A", 100, 10⟩, ⟨"B", 0, 10⟩] ∧
    noSecondClamp [⟨"A", 100, 10⟩, ⟨"B", 0, 10⟩] (1/2) ∧
    calculate_weights_with_cap [⟨"A", 100, 10⟩, ⟨"B", 0, 10⟩] (1/2) =
      Except.ok [("A", 1/2), ("B", 0)] ∧
    weightSum [("A", (1:ℚ)/2), ("B", 0)] ≠ 1 :=
  ⟨by simp, by norm_num [totalMarketCap], nscAB0, cwwcAB0, by norm_num [weightSum]⟩

/-- C1 (amended): for every non-empty equity list with distinct tickers
(the data model of the spec makes `ticker` a unique identifier) and
positive total market cap in which the step-5 clamp never reduces a
weight, and in which additionally either no ticker exceeds the cap or the
non-capped group carries positive total initial weight (so that the
redistribution of a positive excess actually runs), the weights returned
by `calculate_weights_with_cap` sum to exactly 1. -/
theorem claim1_weight_sum (equities : List Equity) (cap : ℚ)
    (ws : List (String × ℚ)) (hne : equities ≠ [])
    (hnd : (equities.map Equity.ticker).Nodup)
    (htot : 0 < totalMarketCap equities)
    (hns : noSecondClamp equities cap)
    (hred : excessWeight cap (initialWeights equities) = 0 ∨
      0 < nonCappedTotal cap (initialWeights equities))
    (hws : calculate_weights_with_cap equities cap = Except.ok ws) :
    weightSum ws = 1 :=
  cwwc_weightSum_eq_one_core hnd hws hns hred

/-- Witness for C1: on `[A: 60, B: 40]` with cap `7/10` nobody is capped,
and the returned weights `3/5` and `2/5` sum to exactly 1. -/
theorem claim1_witness : weightSum [("A", (3:ℚ)/5), ("B", 2/5)] = 1 :=
  claim1_weight_sum [⟨"A", 60, 1⟩, ⟨"B", 40, 1⟩] (7/10) [("A", 3/5), ("B", 2/5)]
    (by simp) (by decide) (by norm_num [totalMarketCap]) nscAB
    (Or.inl (by
      simp only [initialWeights, totalMarketCap, pyDict, dictUpsert, excessWeight,
        List.map, List.foldl, List.sum_cons, List.sum_nil]
      norm_num))
    cwwcAB

/-- C2: for every non-empty equity list with non-negative market caps,
positive total market cap and cap in `(0, 1]`, every weight returned by
`calculate_weights_with_cap` lies in `[0, cap]`, and no ticker absent
from the input appears in the output. -/
theorem claim2_weights_in_range (equities : List Equity) (cap : ℚ)
    (ws : List (String × ℚ)) (hne : equities ≠ [])
    (hmc : ∀ e ∈ equities, 0 ≤ e.market_cap)
    (htot : 0 < totalMarketCap equities) (hcap0 : 0 < cap) (hcap1 : cap ≤ 1)
    (hws : calculate_weights_with_cap equities cap = Except.ok ws) :
    ∀ p ∈ ws, 0 ≤ p.2 ∧ p.2 ≤ cap ∧ p.1 ∈ equities.map Equity.ticker :=
  cwwc_ok_weight_bounds hmc htot hcap0 hws

/-- Witness for C2: on `[A: 60, B: 40]` with cap `7/10`, the returned
entry for A has weight `3/5`, which is in `[0, 7/10]`, and A is an input
ticker. -/
theorem claim2_witness :
    (0:ℚ) ≤ 3/5 ∧ (3:ℚ)/5 ≤ 7/10 ∧
      "A" ∈ ([⟨"A", 60, 1⟩, ⟨"B", 40, 1⟩] : List Equity).map Equity.ticker :=
  claim2_weights_in_range [⟨"A", 60, 1⟩, ⟨"B", 40, 1⟩] (7/10)
    [("A", 3/5), ("B", 2/5)] (by simp)
    (by norm_num [List.forall_mem_cons]) (by norm_num [totalMarketCap])
    (by norm_num) (by norm_num) cwwcAB ("A", 3/5) (List.mem_cons_self _ _)

/-- C3: for every ticker processed by `calculate_shares` with positive
budget, non-negative fee rate and non-negative weight, the chosen share
count satisfies `shares * price * (1 + fee_rate) <= budget * weight`:
floor-based rounding never overspends the cash earmarked for one ticker. -/
theorem claim3_per_ticker_budget (equities : List Equity) (inv fee cap w : ℚ)
    (t : String) (s : ℤ) (e : Equity) (ws : List (String × ℚ))
    (sh : List (String × ℤ)) (inc exc : ℚ)
    (hinv : 0 < inv) (hfee : 0 ≤ fee) (hw0 : 0 ≤ w)
    (hws : calculate_weights_with_cap equities cap = Except.ok ws)
    (hrun : calculate_shares equities inv fee cap = Except.ok (sh, inc, exc))
    (hwmem : (t, w) ∈ ws) (hsmem : (t, s) ∈ sh)
    (he : dictLookup (equityDict equities) t = some e) :
    (s : ℚ) * e.price * (1 + fee) ≤ inv * w := by
  obtain ⟨hinv', ws', hws', haux, -⟩ := calculate_shares_ok_shape hrun
  rw [hws] at hws'
  have hwe : ws = ws' := Except.ok.inj hws'
  rw [← hwe] at haux
  obtain ⟨w', e', hw'mem, he', hp', hs⟩ := calcSharesAux_ok_mem haux t s hsmem
  have hee : e' = e := Option.some.inj (he'.symm.trans he)
  have hww : w' = w := nodup_keys_mem_unique (cwwc_ok_keys_nodup hws) hw'mem hwmem
  rw [hs, hee, hww]
  exact shareCount_spend_le hinv hfee (hee ▸ hp') hw0

/-- Witness for C3: in the single-equity scenario the chosen 24 shares at
price 20 with 3 percent fee cost `24 * 20 * 1.03 = 494.4`, which stays
within the earmarked `1000 * 0.5 = 500`. -/
theorem claim3_witness :
    ((24 : ℤ) : ℚ) * (Equity.mk "X" 100 20).price * (1 + 3/100) ≤ 1000 * (1/2) :=
  claim3_per_ticker_budget [⟨"X", 100, 20⟩] 1000 (3/100) (1/2) (1/2) "X" 24
    ⟨"X", 100, 20⟩ [("X", 1/2)] [("X", 24)] (2472/5) 480
    (by norm_num) (by norm_num) (by norm_num) cwwcX runX
    (List.mem_singleton.mpr rfl) (List.mem_singleton.mpr rfl) lookupX

/-- C4: the single-equity pipeline scenario: `X` with market cap 100 and
price 20, cap `1/2`, budget 1000, fee rate `0.03`, yields weight `1/2`
for X, 24 shares, cost excluding fees 480, total including fees
`494.4 = 2472/5`, and fees `494.4 - 480 = 14.4 = 72/5`. -/
theorem claim4_concrete_scenario :
    calculate_weights_with_cap [⟨"X", 100, 20⟩] (1/2) = Except.ok [("X", 1/2)] ∧
    calculate_shares [⟨"X", 100, 20⟩] 1000 (3/100) (1/2) =
      Except.ok ([("X", 24)], 2472/5, 480) ∧
    (2472:ℚ)/5 - 480 = 72/5 :=
  ⟨cwwcX, runX, by norm_num⟩

/-- C5: for every valid input to `calculate_shares` (distinct tickers per
the data model, non-negative market caps with positive total, positive
prices, positive budget, non-negative fee rate, positive cap), the
returned total cost including fees never exceeds the budget. -/
theorem claim5_total_within_budget (equities : List Equity) (inv fee cap : ℚ)
    (sh : List (String × ℤ)) (inc exc : ℚ)
    (hnd : (equities.map Equity.ticker).Nodup)
    (hmc : ∀ e ∈ equities, 0 ≤ e.market_cap)
    (htot : 0 < totalMarketCap equities)
    (hpr : ∀ e ∈ equities, 0 < e.price)
    (hfee : 0 ≤ fee) (hcap : 0 < cap)
    (hrun : calculate_shares equities inv fee cap = Except.ok (sh, inc, exc)) :
    inc ≤ inv := by
  obtain ⟨hinv, ws, hws, haux, hinc⟩ := calculate_shares_ok_shape hrun
  have hwnn : ∀ p ∈ ws, 0 ≤ p.2 := fun p hp =>
    (cwwc_ok_weight_bounds hmc htot hcap hws p hp).1
  have hb := calcSharesAux_spend_le haux hwnn hinv hfee
  have hs1 : weightSum ws ≤ 1 := cwwc_weightSum_le_one hnd hws
  have hmul : inv * weightSum ws ≤ inv * 1 := mul_le_mul_of_nonneg_left hs1 hinv.le
  calc inc = exc * (1 + fee) := by rw [hinc]; ring
    _ ≤ inv * weightSum ws := by rw [weightSum]; exact hb
    _ ≤ inv := by linarith

/-- Witness for C5: in the single-equity scenario the total cost
including fees, `494.4`, stays within the budget of 1000. -/
theorem claim5_witness : (2472:ℚ)/5 ≤ 1000 :=
  claim5_total_within_budget [⟨"X", 100, 20⟩] 1000 (3/100) (1/2)
    [("X", 24)] (2472/5) 480 (by decide)
    (by norm_num [List.forall_mem_cons]) (by norm_num [totalMarketCap])
    (by norm_num [List.forall_mem_cons]) (by norm_num) (by norm_num) runX

/-- C6 (claim as stated, refuted at a concrete input): on market caps
`A: 60, B: 10, C: 30`, ticker B is uncapped under cap `7/10` with
initial and final weight `1/10`; decreasing the cap to `1/2` caps A and
redistributes its excess, raising the weight of B to `1/8 > 1/10`.  So
decreasing the cap can increase a previously-uncapped ticker's weight. -/
theorem claim6_counterexample :
    ("B", (1:ℚ)/10) ∈ initialWeights [⟨"A", 60, 1⟩, ⟨"B", 10, 1⟩, ⟨"C", 30, 1⟩] ∧
    (1:ℚ)/10 ≤ 7/10 ∧ (1:ℚ)/2 < 7/10 ∧
    calculate_weights_with_cap [⟨"A", 60, 1⟩, ⟨"B", 10, 1⟩, ⟨"C", 30, 1⟩] (7/10) =
      Except.ok [("A", 3/5), ("B", 1/10), ("C", 3/10)] ∧
    calculate_weights_with_cap [⟨"A", 60, 1⟩, ⟨"B", 10, 1⟩, ⟨"C", 30, 1⟩] (1/2) =
      Except.ok [("A", 1/2), ("B", 1/8), ("C", 3/8)] ∧
    ¬ ((1:ℚ)/8 ≤ 1/10) :=
  ⟨by rw [iwABC]; simp, by norm_num, by norm_num, cwwcABC_a, cwwcABC_b,
    by norm_num⟩

/-- C6 (amended): decreasing the cap never increases the weight of a
ticker whose initial weight exceeds the original cap (a previously-capped
ticker): such a ticker is assigned exactly the cap under both caps, and
the smaller cap gives the smaller weight.  (For previously-uncapped
tickers the claim fails, see the counterexample: redistribution can raise
their weight when the cap decreases.) -/
theorem claim6_cap_monotone (equities : List Equity) (c c' w0 wc wc' : ℚ)
    (t : String) (ws ws' : List (String × ℚ)) (hlt : c' < c)
    (hw0 : (t, w0) ∈ initialWeights equities) (hcap : c < w0)
    (hws : calculate_weights_with_cap equities c = Except.ok ws)
    (hws' : calculate_weights_with_cap equities c' = Except.ok ws')
    (hm : (t, wc) ∈ ws) (hm' : (t, wc') ∈ ws') :
    wc' ≤ wc := by
  have hndk : ((initialWeights equities).map Prod.fst).Nodup := by
    rw [initialWeights]
    exact pyDict_keys_nodup _
  obtain ⟨-, hshape⟩ := cwwc_ok_shape hws
  obtain ⟨-, hshape'⟩ := cwwc_ok_shape hws'
  rw [hshape] at hm
  obtain ⟨q, hq, hpq⟩ := List.mem_map.mp hm
  obtain ⟨hq1, hq2⟩ := Prod.mk.injEq _ _ _ _ ▸ hpq
  have hqmem : (t, q.2) ∈ initialWeights equities := by rw [← hq1]; exact hq
  have hqw : q.2 = w0 := nodup_keys_mem_unique hndk hqmem hw0
  have hwc : wc = c := by rw [← hq2, hqw, finalWeight, if_pos hcap]
  rw [hshape'] at hm'
  obtain ⟨r, hr, hpr⟩ := List.mem_map.mp hm'
  obtain ⟨hr1, hr2⟩ := Prod.mk.injEq _ _ _ _ ▸ hpr
  have hrmem : (t, r.2) ∈ initialWeights equities := by rw [← hr1]; exact hr
  have hrw : r.2 = w0 := nodup_keys_mem_unique hndk hrmem hw0
  have hwc' : wc' = c' := by rw [← hr2, hrw, finalWeight, if_pos (hlt.trans hcap)]
  rw [hwc, hwc']
  exact hlt.le

/-- Witness for C6: on market caps `A: 60, B: 10, C: 30`, ticker A has
initial weight `3/5` above both caps; its weight falls from `1/2` to
`1/4` when the cap decreases from `1/2` to `1/4`. -/
theorem claim6_witness : (1:ℚ)/4 ≤ 1/2 :=
  claim6_cap_monotone [⟨"A", 60, 1⟩, ⟨"B", 10, 1⟩, ⟨"C", 30, 1⟩]
    (1/2) (1/4) (3/5) (1/2) (1/4) "A"
    [("A", 1/2), ("B", 1/8), ("C", 3/8)] [("A", 1/4), ("B", 1/4), ("C", 1/4)]
    (by norm_num) (by rw [iwABC]; exact List.mem_cons_self _ _) (by norm_num)
    cwwcABC_b cwwcABC_c (List.mem_cons_self _ _) (List.mem_cons_self _ _)

/-- C7 (claim as stated, refuted at a concrete input): with a single
equity of positive market cap and the invalid cap `2` (outside `(0, 1]`),
`calculate_weights_with_cap` raises no error at all; it happily returns
the uncapped weight 1.  The function performs no cap-range validation. -/
theorem claim7_counterexample :
    calculate_weights_with_cap [⟨"A", 100, 10⟩] 2 = Except.ok [("A", 1)] ∧
    ¬ ((0:ℚ) < 2 ∧ (2:ℚ) ≤ 1) :=
  ⟨cwwcA_capTwo, by norm_num⟩

/-- C7 (amended): the only validation performed by
`calculate_weights_with_cap` itself is on the total market cap: it fails
exactly when the summed market cap is zero, always with the message
`Total market cap is zero` (this is also what an empty equity list
produces); the cap range is never checked.  The distinct message
`Fund data is empty` for an empty input is raised by
`replicate_index_fund`, not by `calculate_weights_with_cap`. -/
theorem claim7_validation :
    (∀ (equities : List Equity) (cap : ℚ) (msg : String),
      calculate_weights_with_cap equities cap = Except.error msg ↔
        (totalMarketCap equities = 0 ∧ msg = "Total market cap is zero")) ∧
    (∀ inv fee cap : ℚ,
      replicate_index_fund [] inv fee cap = Except.error "Fund data is empty") := by
  constructor
  · intro equities cap msg
    constructor
    · intro h
      by_cases ht : totalMarketCap equities = 0
      · refine ⟨ht, ?_⟩
        rw [cwwc_error_of_total_zero ht] at h
        exact (Except.error.inj h).symm
      · simp only [calculate_weights_with_cap, if_neg ht] at h
        exact Except.noConfusion h
    · rintro ⟨ht, hmsg⟩
      rw [hmsg]
      exact cwwc_error_of_total_zero ht
  · intro inv fee cap
    rfl

/-- Witness for C7: the empty list fails with the zero-total message in
`calculate_weights_with_cap`, and with the empty-data message in
`replicate_index_fund`. -/
theorem claim7_witness :
    calculate_weights_with_cap ([] : List Equity) 1 =
      Except.error "Total market cap is zero" ∧
    replicate_index_fund ([] : List Equity) 1 (3/100) (1/2) =
      Except.error "Fund data is empty" :=
  ⟨(claim7_validation.1 [] 1 "Total market cap is zero").mpr
      ⟨by simp [totalMarketCap], rfl⟩,
    claim7_validation.2 1 (3/100) (1/2)⟩

/-- C8: `calculate_shares` fails with the budget message whenever the
investment amount is non-positive (this check comes first), and, for a
positive budget, whenever some ticker of the weight map has a
non-positive price it fails with a message naming an offending ticker
and its price.  Failure is atomic: an `Except.error` result carries no
partial share map or totals. -/
theorem claim8_share_validation (equities : List Equity) (inv fee cap : ℚ) :
    (inv ≤ 0 → calculate_shares equities inv fee cap =
      Except.error "Investment amount must be positive") ∧
    (∀ ws : List (String × ℚ), 0 < inv →
      calculate_weights_with_cap equities cap = Except.ok ws →
      (∃ p ∈ ws, ∃ e, dictLookup (equityDict equities) p.1 = some e ∧
        e.price ≤ 0) →
      ∃ t e, dictLookup (equityDict equities) t = some e ∧ e.price ≤ 0 ∧
        calculate_shares equities inv fee cap =
          Except.error ("Invalid price for " ++ t ++ ": " ++ toString e.price)) := by
  constructor
  · intro hi
    rw [calculate_shares, if_pos hi]
  · intro ws hinv hws hbad
    obtain ⟨t, e, hle, hpe, herr⟩ :=
      @calcSharesAux_badprice equities inv fee ws (cwwc_ok_lookup hws) hbad
    refine ⟨t, e, hle, hpe, ?_⟩
    rw [calculate_shares, if_neg (not_le.mpr hinv)]
    simp only [hws, herr]

/-- Witness for C8: a budget of `-1` is rejected with the budget message,
and the single equity `X` with price 0 makes the run fail with a message
naming `X`. -/
theorem claim8_witness :
    calculate_shares [⟨"X", 100, 0⟩] (-1) (3/100) (1/2) =
      Except.error "Investment amount must be positive" ∧
    (∃ t e, dictLookup (equityDict [⟨"X", 100, 0⟩]) t = some e ∧ e.price ≤ 0 ∧
      calculate_shares [⟨"X", 100, 0⟩] 1000 (3/100) (1/2) =
        Except.error ("Invalid price for " ++ t ++ ": " ++ toString e.price)) :=
  ⟨(claim8_share_validation [⟨"X", 100, 0⟩] (-1) (3/100) (1/2)).1 (by norm_num),
    (claim8_share_validation [⟨"X", 100, 0⟩] 1000 (3/100) (1/2)).2
      [("X", 1/2)] (by norm_num) cwwcX0
      ⟨("X", 1/2), List.mem_singleton.mpr rfl, ⟨"X", 100, 0⟩, rfl, by norm_num⟩⟩

/-- C9: for every input with distinct tickers (the data model makes
`ticker` a unique identifier), non-negative market caps and positive
total market cap, the sum of the weights returned by
`calculate_weights_with_cap` is at most 1: the single-pass algorithm can
under-allocate total weight but never over-allocates it. -/
theorem claim9_weight_sum_le_one (equities : List Equity) (cap : ℚ)
    (ws : List (String × ℚ)) (hnd : (equities.map Equity.ticker).Nodup)
    (hmc : ∀ e ∈ equities, 0 ≤ e.market_cap)
    (htot : 0 < totalMarketCap equities)
    (hws : calculate_weights_with_cap equities cap = Except.ok ws) :
    weightSum ws ≤ 1 :=
  cwwc_weightSum_le_one hnd hws

/-- Witness for C9: the weights returned for `[A: 60, B: 40]` under cap
`7/10` sum to `3/5 + 2/5 = 1 ≤ 1`. -/
theorem claim9_witness : weightSum [("A", (3:ℚ)/5), ("B", 2/5)] ≤ 1 :=
  claim9_weight_sum_le_one [⟨"A", 60, 1⟩, ⟨"B", 40, 1⟩] (7/10)
    [("A", 3/5), ("B", 2/5)] (by decide)
    (by norm_num [List.forall_mem_cons]) (by norm_num [totalMarketCap]) cwwcAB

/-- C10: `calculate_shares` is deterministic: two calls with equal
equity lists, investment amounts, transaction cost rates and cap
percentages return equal share maps and equal totals.  The embedding is
a pure function of its arguments, mirroring the absence of any shared
mutable state in the source. -/
theorem claim10_deterministic (e1 e2 : List Equity) (i1 i2 f1 f2 c1 c2 : ℚ)
    (he : e1 = e2) (hi : i1 = i2) (hf : f1 = f2) (hc : c1 = c2) :
    calculate_shares e1 i1 f1 c1 = calculate_shares e2 i2 f2 c2 := by
  rw [he, hi, hf, hc]

/-- Witness for C10: the single-equity run equals itself when repeated
with the same arguments. -/
theorem claim10_witness :
    calculate_shares [⟨"X", 100, 20⟩] 1000 (3/100) (1/2) =
      calculate_shares [⟨"X", 100, 20⟩] 1000 (3/100) (1/2) :=
  claim10_deterministic [⟨"X", 100, 20⟩] [⟨"X", 100, 20⟩] 1000 1000
    (3/100) (3/100) (1/2) (1/2) rfl rfl rfl rfl
